import Mathlib

/-!
Verification of the session deduplication/merge engine and report pipeline
of the ZoomAttendanceBot repository (src/zoom.py, src/zoom_cron.py; the two
files duplicate the relevant classes verbatim).

Python dict fields are modelled with `Option` so that an absent key is
distinguished from a present-but-falsy value, exactly as `dict.get(k, d)`
distinguishes them.  Python string slicing, `strip`, `lower` and string
comparison operate on code points, modelled here through `List Char`
(`lower` is modelled on the ASCII range, which covers every string the
program compares against and every example in the specification).
-/

namespace ZoomBot

/-! ### Python string primitives -/

/-- Python whitespace characters stripped by `str.strip()` (ASCII range). -/
def isPySpace (c : Char) : Bool :=
  c = ' ' || c = '\t' || c = '\n' || c = '\r' || c.toNat = 11 || c.toNat = 12

/-- `str.strip()` on the character list. -/
def stripChars (cs : List Char) : List Char :=
  ((cs.dropWhile isPySpace).reverse.dropWhile isPySpace).reverse

/-- `str.strip()`. -/
def pyStrip (s : String) : String := ⟨stripChars s.toList⟩

/-- `str.lower()` on one character (ASCII model of Python lower-casing). -/
def pyLowerChar (c : Char) : Char :=
  if 65 ≤ c.toNat ∧ c.toNat ≤ 90 then Char.ofNat (c.toNat + 32) else c

/-- `str.lower()`. -/
def pyLower (s : String) : String := ⟨s.toList.map pyLowerChar⟩

/-- Python slice `s[:n]`. -/
def pyTake (s : String) (n : Nat) : String := ⟨s.toList.take n⟩

/-- Python slice `s[:-1]`. -/
def pyDropLast (s : String) : String := ⟨s.toList.dropLast⟩

/-- Python `s[-1]` for nonempty `s` (a space for the empty string,
which every use site guards against). -/
def lastChar (s : String) : Char := s.toList.getLastD ' '

/-- Python string length (number of code points). -/
def pyLen (s : String) : Nat := s.toList.length

/-! ### Lexicographic order on strings, as Python compares them
(code point by code point). -/

def lexLeChars : List Char → List Char → Bool
  | [], _ => true
  | _ :: _, [] => false
  | a :: as, b :: bs =>
    if a.toNat < b.toNat then true
    else if b.toNat < a.toNat then false
    else lexLeChars as bs

/-- Python `a <= b` on strings. -/
def lexLe (a b : String) : Bool := lexLeChars a.toList b.toList

theorem lexLeChars_nil (b : List Char) : lexLeChars [] b = true := rfl

theorem lexLeChars_cons_nil (a : Char) (as : List Char) :
    lexLeChars (a :: as) [] = false := rfl

theorem lexLeChars_cons_cons (a b : Char) (as bs : List Char) :
    lexLeChars (a :: as) (b :: bs) =
      (if a.toNat < b.toNat then true
       else if b.toNat < a.toNat then false
       else lexLeChars as bs) := rfl

theorem lexLeChars_refl : ∀ (l : List Char), lexLeChars l l = true
  | [] => rfl
  | a :: as => by
    rw [lexLeChars_cons_cons, if_neg (Nat.lt_irrefl _), if_neg (Nat.lt_irrefl _)]
    exact lexLeChars_refl as

theorem lexLeChars_total : ∀ (a b : List Char),
    lexLeChars a b = true ∨ lexLeChars b a = true
  | [], _ => Or.inl rfl
  | _ :: _, [] => Or.inr rfl
  | x :: xs, y :: ys => by
    rw [lexLeChars_cons_cons, lexLeChars_cons_cons]
    rcases Nat.lt_trichotomy x.toNat y.toNat with h | h | h
    · left; rw [if_pos h]
    · have h1 : ¬ x.toNat < y.toNat := by omega
      have h2 : ¬ y.toNat < x.toNat := by omega
      rw [if_neg h1, if_neg h2, if_neg h2, if_neg h1]
      exact lexLeChars_total xs ys
    · right; rw [if_pos h]

theorem lexLeChars_trans : ∀ (a b c : List Char),
    lexLeChars a b = true → lexLeChars b c = true → lexLeChars a c = true
  | [], _, _, _, _ => rfl
  | _ :: _, [], _, hab, _ => by
    rw [lexLeChars_cons_nil] at hab; exact absurd hab (by decide)
  | _ :: _, _ :: _, [], _, hbc => by
    rw [lexLeChars_cons_nil] at hbc; exact absurd hbc (by decide)
  | x :: xs, y :: ys, z :: zs, hab, hbc => by
    rw [lexLeChars_cons_cons] at hab hbc ⊢
    rcases Nat.lt_trichotomy x.toNat y.toNat with h1 | h1 | h1
    · rcases Nat.lt_trichotomy y.toNat z.toNat with h2 | h2 | h2
      · rw [if_pos (show x.toNat < z.toNat by omega)]
      · rw [if_pos (show x.toNat < z.toNat by omega)]
      · rw [if_neg (show ¬ y.toNat < z.toNat by omega),
          if_pos (show z.toNat < y.toNat by omega)] at hbc
        exact absurd hbc (by decide)
    · rcases Nat.lt_trichotomy y.toNat z.toNat with h2 | h2 | h2
      · rw [if_pos (show x.toNat < z.toNat by omega)]
      · rw [if_neg (show ¬ x.toNat < y.toNat by omega),
          if_neg (show ¬ y.toNat < x.toNat by omega)] at hab
        rw [if_neg (show ¬ y.toNat < z.toNat by omega),
          if_neg (show ¬ z.toNat < y.toNat by omega)] at hbc
        rw [if_neg (show ¬ x.toNat < z.toNat by omega),
          if_neg (show ¬ z.toNat < x.toNat by omega)]
        exact lexLeChars_trans xs ys zs hab hbc
      · rw [if_neg (show ¬ y.toNat < z.toNat by omega),
          if_pos (show z.toNat < y.toNat by omega)] at hbc
        exact absurd hbc (by decide)
    · rw [if_neg (show ¬ x.toNat < y.toNat by omega),
        if_pos (show y.toNat < x.toNat by omega)] at hab
      exact absurd hab (by decide)

/-! ### RawSession model (one item of the Zoom participants response).
Fields mirror the dict keys read by the program. -/

structure Session where
  name : Option String
  user_email : Option String
  join_time : Option String
  leave_time : Option String
  duration : Option Int
  status : Option String
deriving DecidableEq, Inhabited

/-- `participant.get("name", "")` as read in `_deduplicate_participants`. -/
def nameGet (s : Session) : String := s.name.getD ""

/-- `session.get("name", "Unknown")` as read in `_combine_sessions` and
`generate_report`. -/
def nameGetU (s : Session) : String := s.name.getD "Unknown"

/-- `session.get("user_email", "")`. -/
def emailGet (s : Session) : String := s.user_email.getD ""

/-- `session.get("join_time", "")`. -/
def joinGet (s : Session) : String := s.join_time.getD ""

/-- `session.get("leave_time", "")`. -/
def leaveGet (s : Session) : String := s.leave_time.getD ""

/-- `session.get("duration", 0)`. -/
def durGet (s : Session) : Int := s.duration.getD 0

/-- `session.get("status", "Unknown")`. -/
def statusGet (s : Session) : String := s.status.getD "Unknown"

/-! ### Identity key and grouping (`_deduplicate_participants`) -/

/-- The identity key: `email = p.get("user_email","").strip().lower()`,
`name = p.get("name","").strip()`,
`key = email if email and email != "n/a" else name.lower()`. -/
def keyOf (s : Session) : String :=
  let email := pyLower (pyStrip (emailGet s))
  let name := pyStrip (nameGet s)
  if email ≠ "" ∧ email ≠ "n/a" then email else pyLower name

/-- Python `dict` insertion semantics over an association list: if the key
is present, its (unique, first) entry is updated in place; otherwise the
entry is appended, preserving first-insertion key order. -/
def updOrAppend {α : Type} (m : List (String × α)) (k : String)
    (upd : α → α) (ini : α) : List (String × α) :=
  if m.any (fun p => p.1 = k) then
    m.map (fun p => if p.1 = k then (p.1, upd p.2) else p)
  else m ++ [(k, ini)]

/-- `participant_groups[key].append(participant)` (creating the list on
first sight of the key). -/
def addToGroups (gs : List (String × List Session)) (k : String)
    (s : Session) : List (String × List Session) :=
  updOrAppend gs k (fun g => g ++ [s]) [s]

/-- The grouping loop of `_deduplicate_participants`. -/
def groupParticipants (ps : List Session) : List (String × List Session) :=
  ps.foldl (fun gs p => addToGroups gs (keyOf p) p) []

/-! ### Session combination (`_combine_sessions`) -/

/-- Comparison used by `sessions.sort(key=lambda x: x.get("join_time", ""))`. -/
def sessLE (a b : Session) : Prop := lexLe (joinGet a) (joinGet b) = true

instance : DecidableRel sessLE := fun a b =>
  inferInstanceAs (Decidable (lexLe (joinGet a) (joinGet b) = true))

instance : IsTotal Session sessLE :=
  ⟨fun a b => lexLeChars_total (joinGet a).toList (joinGet b).toList⟩

instance : IsTrans Session sessLE :=
  ⟨fun a b c => lexLeChars_trans (joinGet a).toList (joinGet b).toList
    (joinGet c).toList⟩

instance : IsRefl Session sessLE :=
  ⟨fun a => lexLeChars_refl (joinGet a).toList⟩

/-- Stable ascending sort by join time.  Python's `list.sort` is stable, and
a stable sort with respect to a given total preorder is unique, so the
stable insertion sort produces exactly the list Python produces. -/
def sortByJoin (ss : List Session) : List Session :=
  ss.insertionSort sessLE

/-- Filter of the generator inside `next(...)`:
`s.get("user_email", "").strip() and s.get("user_email", "").lower() != "n/a"`.
(Note the `n/a` test lower-cases the raw, unstripped email.) -/
def validEmail (s : Session) : Bool :=
  pyStrip (emailGet s) ≠ "" && pyLower (emailGet s) ≠ "n/a"

/-- `next((s.get("user_email","") for s in sessions if ...), "N/A")`. -/
def bestEmail (ss : List Session) : String :=
  match ss.find? validEmail with
  | some s => emailGet s
  | none => "N/A"

/-- `_combine_sessions`.  The in-place `sessions.sort(...)` happens first,
so the duration sum and the email scan both run over the sorted list. -/
def combine_sessions (ss : List Session) : Session :=
  let sorted := sortByJoin ss
  { name := some (nameGetU sorted.headI)
    user_email := some (bestEmail sorted)
    join_time := some (joinGet sorted.headI)
    leave_time := some (leaveGet (sorted.getLastD default))
    duration := some ((sorted.map durGet).sum)
    status := some (statusGet sorted.headI) }

/-- The per-group branch of `_deduplicate_participants`:
a singleton group is promoted unchanged, a larger group is combined. -/
def mergeGroup (ss : List Session) : Session :=
  match ss with
  | [s] => s
  | _ => combine_sessions ss

/-- `_deduplicate_participants`. -/
def deduplicate_participants (ps : List Session) : List Session :=
  (groupParticipants ps).map (fun g => mergeGroup g.2)

/-! ### Model of `datetime.strptime(s[:19], "%Y-%m-%dT%H:%M:%S")`.
CPython's `_strptime` matches `%Y` as exactly four digits, `%m` `%d` `%H`
`%M` `%S` as one or two digits within their ranges, requires the literal
separators, rejects unconverted trailing data, and the `datetime`
constructor then validates the day against the month and `MINYEAR = 1`.
Every numeric field here is followed by a non-digit separator or the end of
the string, so a maximal-digit-run scan reproduces the regex exactly. -/

/-- Maximal leading digit run and the rest. -/
def splitDigits : List Char → List Char × List Char
  | [] => ([], [])
  | c :: cs =>
    if c.isDigit then
      let p := splitDigits cs
      (c :: p.1, p.2)
    else ([], c :: cs)

def digitsToNat (ds : List Char) : Nat :=
  ds.foldl (fun a c => a * 10 + (c.toNat - 48)) 0

def expectChar (c : Char) : List Char → Option (List Char)
  | [] => none
  | x :: xs => if x = c then some xs else none

/-- The literal `T` of the format.  CPython's `_strptime` compiles the
format into a regex with `re.IGNORECASE`, so a lowercase `t` also
matches (the other literals, `-` and `:`, are unaffected by case). -/
def expectTee : List Char → Option (List Char)
  | [] => none
  | x :: xs => if x = 'T' ∨ x = 't' then some xs else none

structure DateTimeParts where
  year : Nat
  month : Nat
  day : Nat
  hour : Nat
  minute : Nat
  second : Nat
deriving DecidableEq

def leapYear (y : Nat) : Bool :=
  y % 4 == 0 && (y % 100 != 0 || y % 400 == 0)

def daysInMonth (y m : Nat) : Nat :=
  if m = 2 then (if leapYear y then 29 else 28)
  else if m = 4 ∨ m = 6 ∨ m = 9 ∨ m = 11 then 30
  else 31

def strptime19 (cs : List Char) : Option DateTimeParts := do
  let (yd, r) := splitDigits cs
  guard (yd.length = 4)
  let y := digitsToNat yd
  guard (1 ≤ y)
  let r ← expectChar '-' r
  let (md, r) := splitDigits r
  let mo := digitsToNat md
  guard ((md.length = 1 ∨ md.length = 2) ∧ 1 ≤ mo ∧ mo ≤ 12)
  let r ← expectChar '-' r
  let (dd, r) := splitDigits r
  let d := digitsToNat dd
  guard ((dd.length = 1 ∨ dd.length = 2) ∧ 1 ≤ d ∧ d ≤ daysInMonth y mo)
  let r ← expectTee r
  let (hd, r) := splitDigits r
  let h := digitsToNat hd
  guard ((hd.length = 1 ∨ hd.length = 2) ∧ h ≤ 23)
  let r ← expectChar ':' r
  let (mind, r) := splitDigits r
  let mi := digitsToNat mind
  guard ((mind.length = 1 ∨ mind.length = 2) ∧ mi ≤ 59)
  let r ← expectChar ':' r
  let (sd, r) := splitDigits r
  let sec := digitsToNat sd
  guard ((sd.length = 1 ∨ sd.length = 2) ∧ sec ≤ 59)
  guard (r = [])
  pure ⟨y, mo, d, h, mi, sec⟩

/-- Whether the `try` block's parse succeeds on the 19-character prefix. -/
def strptimeOk (s : String) : Bool := (strptime19 s.toList).isSome

/-! ### `TimeHelper.to_pst` / `to_pst_time_only`.
The `try` block first parses the 19-character prefix (`strptime`), then
runs the localize/astimezone/strftime pipeline, which depends only on the
parsed prefix and the timezone database.  That pipeline can itself raise —
`astimezone` raises `OverflowError` for instants whose conversion falls
below `datetime.min` (e.g. `"0001-01-01T00:00:00"` in a zone west of UTC)
— so it is abstracted as `conv : String → Option String` applied to the
prefix, `none` standing for a raise.  The bare `except` catches both the
parse failure and the pipeline failure and falls back to the input. -/

def to_pst (conv : String → Option String) (s : String) : String :=
  if s = "" ∨ s = "Unknown" then "Unknown"
  else
    (if strptimeOk (pyTake s 19) then conv (pyTake s 19) else none).getD s

def to_pst_time_only (conv : String → Option String) (s : String) : String :=
  if s = "" ∨ s = "Unknown" then "Unknown"
  else
    (if strptimeOk (pyTake s 19) then conv (pyTake s 19) else none).getD
      (if 5 < pyLen s then pyTake s 5 else s)

/-! ### `TimeHelper.parse_time_input` -/

/-- `\d(_?\d)*` after the first character. -/
def digitsRest : List Char → Bool
  | [] => true
  | '_' :: c :: cs => c.isDigit && digitsRest cs
  | c :: cs => c.isDigit && digitsRest cs

/-- Nonempty digit string, single underscores allowed between digits. -/
def digitsOk : List Char → Bool
  | [] => false
  | c :: cs => c.isDigit && digitsRest cs

def digitsVal (cs : List Char) : Nat :=
  digitsToNat (cs.filter (fun c => c ≠ '_'))

/-- Model of Python `int(s)` (base 10, ASCII): optional surrounding
whitespace, one optional sign, then digits with single underscores
between them; anything else raises, modelled as `none`. -/
def pyInt? (s : String) : Option Int :=
  match stripChars s.toList with
  | '+' :: cs => if digitsOk cs then some (digitsVal cs : Int) else none
  | '-' :: cs => if digitsOk cs then some (-(digitsVal cs : Int)) else none
  | cs => if digitsOk cs then some (digitsVal cs : Int) else none

/-- Seconds of `timedelta(hours=n)`, `timedelta(minutes=n)`,
`timedelta(days=n)` by the unit letter. -/
def unitSeconds (c : Char) (n : Int) : Int :=
  if c = 'h' then n * 3600 else if c = 'm' then n * 60 else n * 86400

/-- `TimeHelper.parse_time_input`, the returned `timedelta` represented by
its total seconds.  After strip/lower: empty input defaults to one day; a
trailing `h`/`m`/`d` with an integer prefix gives the unit duration; a
failed prefix parse falls through, like a missing unit letter, to
`int(time_input)` whole-string days; and if that also fails, one day. -/
def parse_time_input (s : String) : Int :=
  let t := pyLower (pyStrip s)
  if t = "" then 86400
  else
    let attempt : Option Int :=
      if lastChar t = 'h' ∨ lastChar t = 'm' ∨ lastChar t = 'd' then
        (pyInt? (pyDropLast t)).map (unitSeconds (lastChar t))
      else none
    attempt.getD (((pyInt? t).map (· * 86400)).getD 86400)

/-! ### Meetings and the report pipeline -/

structure Occurrence where
  topic : Option String
  start_time : Option String
  uuid : Option String
  id : Option String
deriving DecidableEq, Inhabited

/-- `meeting.get("start_time", "")`. -/
def startGet (o : Occurrence) : String := o.start_time.getD ""

/-- One row of the `attendance_data` list:
(Meeting Date (PST), Meeting Time (PST), Participant Name). -/
structure ReportRow where
  date : String
  time : String
  pname : String
deriving DecidableEq

/-- `TimeHelper.to_pst(start_time)[:10] if start_time else "Unknown"`. -/
def occDate (convD : String → Option String) (o : Occurrence) : String :=
  if startGet o = "" then "Unknown"
  else pyTake (to_pst convD (startGet o)) 10

/-- `TimeHelper.to_pst_time_only(start_time)`. -/
def occTime (convT : String → Option String) (o : Occurrence) : String :=
  to_pst_time_only convT (startGet o)

/-- The rows and names one meeting contributes in the `generate_report`
loop: the `"No attendees"` placeholder when the fetched participant list is
empty, else one row per deduplicated participant. -/
def rowsForOccurrence (convD convT : String → Option String)
    (fetch : Occurrence → List Session) (o : Occurrence) :
    List ReportRow × List String :=
  match fetch o with
  | [] => ([⟨occDate convD o, occTime convT o, "No attendees"⟩],
           ["No attendees"])
  | p :: ps =>
    let dd := deduplicate_participants (p :: ps)
    (dd.map (fun q => ⟨occDate convD o, occTime convT o, nameGetU q⟩),
     dd.map nameGetU)

/-- `AttendanceReporter.generate_report` over the already-fetched meeting
list, with the participant fetch injected; the loop appends each meeting's
rows to `attendance_data` and each name to `all_participants`. -/
def generate_report (convD convT : String → Option String)
    (fetch : Occurrence → List Session) :
    List Occurrence → List ReportRow × List String
  | [] => ([], [])
  | o :: rest =>
    let r := rowsForOccurrence convD convT fetch o
    let acc := generate_report convD convT fetch rest
    (r.1 ++ acc.1, r.2 ++ acc.2)

/-! ### `ZoomAPI.get_meeting_instances` -/

/-- `str(meeting.get("id"))`; Python `str(None)` is `"None"`. -/
def idStr (o : Occurrence) : String :=
  match o.id with
  | some s => s
  | none => "None"

/-- The filter `str(meeting.get("id")) == str(meeting_id)` over the
user-meetings query result. -/
def matchingOf (user_meetings : List Occurrence) (meeting_id : String) :
    List Occurrence :=
  user_meetings.filter (fun o => idStr o = meeting_id)

/-- `instance.get("uuid", instance.get("id"))`. -/
def occKey (o : Occurrence) : Option String :=
  match o.uuid with
  | some u => some u
  | none => o.id

/-- `unique_instances[uuid] = instance`. -/
def dictInsert (m : List (String × Occurrence)) (k : String)
    (v : Occurrence) : List (String × Occurrence) :=
  updOrAppend m k (fun _ => v) v

/-- The key under which one loop iteration inserts its instance, if any:
the iteration skips instances with an empty `start_time`, instances failing
the parse-and-cutoff test (abstracted as `keep`, since the cutoff reads the
real clock), and falsy uuid/id keys. -/
def insKey (keep : Occurrence → Bool) (o : Occurrence) : Option String :=
  if startGet o = "" then none
  else if keep o then
    match occKey o with
    | some k => if k ≠ "" then some k else none
    | none => none
  else none

/-- `ZoomAPI.get_meeting_instances`: the instances-of-meeting response,
then the matching user meetings, inserted in order into a dict keyed by
uuid/id; the dict's values (first-insertion key order, last-written value)
are returned. -/
def get_meeting_instances (instancesResp user_meetings : List Occurrence)
    (meeting_id : String) (keep : Occurrence → Bool) : List Occurrence :=
  let all := instancesResp ++ matchingOf user_meetings meeting_id
  let m := all.foldl (fun m o =>
    match insKey keep o with
    | some k => dictInsert m k o
    | none => m) []
  m.map Prod.snd

/-! ## Claims -/

/-- C7 (counterexample): the input `"3"` has no trailing unit letter, so
the claim says the parser must return exactly 1 day (86400 s); the code's
bare-integer fallback `timedelta(days=int(time_input))` returns 3 days. -/
theorem parse_time_input_bare_integer :
    parse_time_input "3" = 259200 ∧ (259200 : Int) ≠ 86400 := by decide

/-- C7 (amended): after strip/lower, an integer followed by a final `h`,
`m` or `d` yields the corresponding duration; an input whose whole trimmed
form is an integer not ending in a unit letter yields that many days; the
empty input and every input where both integer parses fail yield 1 day. -/
theorem parse_time_input_spec (s : String) (n : Int) :
    (pyLower (pyStrip s) = "" → parse_time_input s = 86400) ∧
    (pyLower (pyStrip s) ≠ "" →
      pyInt? (pyDropLast (pyLower (pyStrip s))) = some n →
      ((lastChar (pyLower (pyStrip s)) = 'h' → parse_time_input s = n * 3600) ∧
       (lastChar (pyLower (pyStrip s)) = 'm' → parse_time_input s = n * 60) ∧
       (lastChar (pyLower (pyStrip s)) = 'd' → parse_time_input s = n * 86400))) ∧
    (pyLower (pyStrip s) ≠ "" →
      lastChar (pyLower (pyStrip s)) ∉ (['h', 'm', 'd'] : List Char) →
      pyInt? (pyLower (pyStrip s)) = some n →
      parse_time_input s = n * 86400) ∧
    (pyLower (pyStrip s) ≠ "" →
      pyInt? (pyDropLast (pyLower (pyStrip s))) = none →
      pyInt? (pyLower (pyStrip s)) = none →
      parse_time_input s = 86400) ∧
    (pyLower (pyStrip s) ≠ "" →
      lastChar (pyLower (pyStrip s)) ∉ (['h', 'm', 'd'] : List Char) →
      pyInt? (pyLower (pyStrip s)) = none →
      parse_time_input s = 86400) := by
  set t := pyLower (pyStrip s) with ht
  refine ⟨?_, ?_, ?_, ?_, ?_⟩
  · intro h1
    simp only [parse_time_input, ← ht, h1, if_pos]
  · intro h1 h2
    refine ⟨?_, ?_, ?_⟩ <;> intro hc <;>
      simp only [parse_time_input, ← ht, if_neg h1, hc, h2] <;> rfl
  · intro h1 hc h2
    have hor : ¬ (lastChar t = 'h' ∨ lastChar t = 'm' ∨ lastChar t = 'd') := by
      simp only [List.mem_cons, List.mem_singleton] at hc
      tauto
    simp only [parse_time_input, ← ht, if_neg h1, if_neg hor, h2]
    rfl
  · intro h1 h2 h3
    by_cases hor : lastChar t = 'h' ∨ lastChar t = 'm' ∨ lastChar t = 'd'
    · simp only [parse_time_input, ← ht, if_neg h1, if_pos hor, h2, h3]
      rfl
    · simp only [parse_time_input, ← ht, if_neg h1, if_neg hor, h3]
      rfl
  · intro h1 hc h3
    have hor : ¬ (lastChar t = 'h' ∨ lastChar t = 'm' ∨ lastChar t = 'd') := by
      simp only [List.mem_cons, List.mem_singleton] at hc
      tauto
    simp only [parse_time_input, ← ht, if_neg h1, if_neg hor, h3]
    rfl

/-- C7 witness: concrete unit inputs, a bare integer, and a junk input. -/
theorem parse_time_input_spec_witness :
    parse_time_input "2h" = 7200 ∧ parse_time_input "45m" = 2700 ∧
    parse_time_input "3d" = 259200 ∧ parse_time_input "5" = 432000 ∧
    parse_time_input "xyz" = 86400 ∧ parse_time_input "" = 86400 := by
  refine ⟨?_, ?_, ?_, ?_, ?_, ?_⟩
  · exact ((parse_time_input_spec "2h" 2).2.1 (by decide) (by decide)).1 (by decide)
  · exact ((parse_time_input_spec "45m" 45).2.1 (by decide) (by decide)).2.1 (by decide)
  · exact ((parse_time_input_spec "3d" 3).2.1 (by decide) (by decide)).2.2 (by decide)
  · exact (parse_time_input_spec "5" 5).2.2.1 (by decide) (by decide) (by decide)
  · exact (parse_time_input_spec "xyz" 0).2.2.2.2 (by decide) (by decide) (by decide)
  · exact (parse_time_input_spec "" 0).1 (by decide)

/-! Sorting facts shared by the merge claims. -/

theorem sortByJoin_perm (ss : List Session) : (sortByJoin ss).Perm ss :=
  List.perm_insertionSort sessLE ss

theorem sortByJoin_sorted (ss : List Session) :
    List.Sorted sessLE (sortByJoin ss) :=
  List.sorted_insertionSort sessLE ss

theorem sessLE_refl (a : Session) : sessLE a a := lexLeChars_refl _

theorem sorted_head_min {a : Session} {l : List Session}
    (h : List.Sorted sessLE (a :: l)) : ∀ x ∈ a :: l, sessLE a x := by
  intro x hx
  rcases List.mem_cons.1 hx with rfl | hx
  · exact sessLE_refl x
  · exact (List.sorted_cons.1 h).1 x hx

theorem getLastD_mem : ∀ (l : List Session), l ≠ [] → l.getLastD default ∈ l
  | [], h => absurd rfl h
  | [a], _ => List.mem_singleton.2 rfl
  | a :: b :: r, _ => by
    have hgl : (a :: b :: r).getLastD default = (b :: r).getLastD default := by
      simp [List.getLastD_cons]
    rw [hgl]
    exact List.mem_cons_of_mem a (getLastD_mem (b :: r) (by simp))

theorem sorted_last_max : ∀ (l : List Session), List.Sorted sessLE l →
    ∀ x ∈ l, sessLE x (l.getLastD default)
  | [], _, x, hx => absurd hx (List.not_mem_nil x)
  | [a], _, x, hx => by
    rcases List.mem_singleton.1 hx with rfl
    exact sessLE_refl x
  | a :: b :: r, h, x, hx => by
    have hgl : (a :: b :: r).getLastD default = (b :: r).getLastD default := by
      simp [List.getLastD_cons]
    have h' := List.sorted_cons.1 h
    rw [hgl]
    rcases List.mem_cons.1 hx with rfl | hx
    · exact h'.1 _ (getLastD_mem (b :: r) (by simp))
    · exact sorted_last_max (b :: r) h'.2 x hx

theorem mergeGroup_singleton (s : Session) : mergeGroup [s] = s := rfl

theorem mergeGroup_cons_cons (a b : Session) (r : List Session) :
    mergeGroup (a :: b :: r) = combine_sessions (a :: b :: r) := rfl

theorem combine_durGet (ss : List Session) :
    durGet (combine_sessions ss) = (ss.map durGet).sum := by
  have h1 : durGet (combine_sessions ss) = ((sortByJoin ss).map durGet).sum := rfl
  rw [h1]
  exact ((sortByJoin_perm ss).map durGet).sum_eq

/-- C4: for every group of N ≥ 1 sessions, the merged record's total
duration is the sum of the members' durations (an absent duration read as
0), and the sum is invariant under any permutation of the group. -/
theorem merged_duration_additive (ss tt : List Session)
    (h : 1 ≤ ss.length) (hp : tt.Perm ss) :
    durGet (mergeGroup ss) = (ss.map durGet).sum ∧
    durGet (mergeGroup tt) = (ss.map durGet).sum := by
  have key : ∀ (l : List Session),
      durGet (mergeGroup l) = (l.map durGet).sum := by
    intro l
    match l with
    | [] => rfl
    | [s] => simp [mergeGroup_singleton]
    | a :: b :: r => rw [mergeGroup_cons_cons, combine_durGet]
  exact ⟨key ss, (key tt).trans (hp.map durGet).sum_eq⟩

/-- C4 witness: the spec's end-to-end Alice scenario, in both orders. -/
theorem merged_duration_additive_witness :
    durGet (mergeGroup
      [⟨some "Alice", some "alice@co.com", some "t1", some "t2", some 300, none⟩,
       ⟨some "Alice L.", some "alice@co.com", some "t3", some "t4", some 600, none⟩]) = 900 ∧
    durGet (mergeGroup
      [⟨some "Alice L.", some "alice@co.com", some "t3", some "t4", some 600, none⟩,
       ⟨some "Alice", some "alice@co.com", some "t1", some "t2", some 300, none⟩]) = 900 := by
  have h := merged_duration_additive
    [⟨some "Alice", some "alice@co.com", some "t1", some "t2", some 300, none⟩,
     ⟨some "Alice L.", some "alice@co.com", some "t3", some "t4", some 600, none⟩]
    [⟨some "Alice L.", some "alice@co.com", some "t3", some "t4", some 600, none⟩,
     ⟨some "Alice", some "alice@co.com", some "t1", some "t2", some 300, none⟩]
    (by decide) (by decide)
  exact ⟨h.1.trans (by decide), h.2.trans (by decide)⟩

/-- C1 (counterexample): with join times "a" < "b" and leave times "z",
"c", the sort by join time puts the "z" session first, so the merged
leaveTime is "c" — not the lexicographic maximum "z" of the leave times. -/
theorem combine_leave_not_max :
    leaveGet (combine_sessions
      [⟨none, none, some "a", some "z", none, none⟩,
       ⟨none, none, some "b", some "c", none, none⟩]) = "c" ∧
    (⟨none, none, some "a", some "z", none, none⟩ : Session) ∈
      [⟨none, none, some "a", some "z", none, none⟩,
       ⟨none, none, some "b", some "c", none, none⟩] ∧
    leaveGet ⟨none, none, some "a", some "z", none, none⟩ = "z" ∧
    ("c" : String) ≠ "z" ∧ lexLe "z" "c" = false := by decide

/-- C1 (amended): for N ≥ 2, the merged joinTime is the lexicographic
minimum of the group's join times (absent read as "", which sorts first);
the merged leaveTime is the leave time of a session whose join time is the
lexicographic maximum of the group's join times (not necessarily the
maximum leave time). -/
theorem combine_join_leave (ss : List Session) (h : 2 ≤ ss.length) :
    (joinGet (combine_sessions ss) ∈ ss.map joinGet ∧
      ∀ j ∈ ss.map joinGet, lexLe (joinGet (combine_sessions ss)) j = true) ∧
    (∃ s ∈ ss, leaveGet (combine_sessions ss) = leaveGet s ∧
      ∀ j ∈ ss.map joinGet, lexLe j (joinGet s) = true) := by
  have hperm := sortByJoin_perm ss
  have hsorted := sortByJoin_sorted ss
  have hne : sortByJoin ss ≠ [] := by
    intro he
    have hl := hperm.length_eq
    rw [he] at hl
    simp only [List.length_nil] at hl
    omega
  obtain ⟨a, l, hal⟩ := List.exists_cons_of_ne_nil hne
  have hjoin : joinGet (combine_sessions ss) = joinGet a := by
    show joinGet ((sortByJoin ss).headI) = joinGet a
    rw [hal]
    rfl
  have hsorted' : List.Sorted sessLE (a :: l) := hal ▸ hsorted
  constructor
  · constructor
    · rw [hjoin]
      exact List.mem_map_of_mem joinGet
        (hperm.mem_iff.1 (by rw [hal]; exact List.mem_cons_self a l))
    · intro j hj
      obtain ⟨x, hx, rfl⟩ := List.mem_map.1 hj
      have hx' : x ∈ a :: l := by rw [← hal]; exact hperm.mem_iff.2 hx
      rw [hjoin]
      exact sorted_head_min hsorted' x hx'
  · refine ⟨(sortByJoin ss).getLastD default, ?_, rfl, ?_⟩
    · exact hperm.mem_iff.1 (getLastD_mem _ hne)
    · intro j hj
      obtain ⟨x, hx, rfl⟩ := List.mem_map.1 hj
      exact sorted_last_max _ hsorted x (hperm.mem_iff.2 hx)

/-- C1 witness: two sessions with joins "b" < "a" reversed in encounter
order; the merged join is the minimum "a" and the merged leave comes from
the maximal-join session. -/
theorem combine_join_leave_witness :
    (joinGet (combine_sessions
        [⟨none, none, some "b", some "y", none, none⟩,
         ⟨none, none, some "a", some "x", none, none⟩]) ∈
      [⟨none, none, some "b", some "y", none, none⟩,
       ⟨none, none, some "a", some "x", none, none⟩].map joinGet ∧
      ∀ j ∈ [⟨none, none, some "b", some "y", none, none⟩,
             ⟨none, none, some "a", some "x", none, none⟩].map joinGet,
        lexLe (joinGet (combine_sessions
          [⟨none, none, some "b", some "y", none, none⟩,
           ⟨none, none, some "a", some "x", none, none⟩])) j = true) ∧
    (∃ s ∈ [⟨none, none, some "b", some "y", none, none⟩,
            ⟨none, none, some "a", some "x", none, none⟩],
      leaveGet (combine_sessions
        [⟨none, none, some "b", some "y", none, none⟩,
         ⟨none, none, some "a", some "x", none, none⟩]) = leaveGet s ∧
      ∀ j ∈ [⟨none, none, some "b", some "y", none, none⟩,
             ⟨none, none, some "a", some "x", none, none⟩].map joinGet,
        lexLe j (joinGet s) = true) :=
  combine_join_leave _ (by decide)

/-! Generic `find?` facts used for the email scan and the dict models. -/

theorem find?_append_of_none {α : Type} {p : α → Bool} {l₁ : List α}
    (h : ∀ x ∈ l₁, p x = false) (l₂ : List α) :
    (l₁ ++ l₂).find? p = l₂.find? p := by
  induction l₁ with
  | nil => rfl
  | cons a r ih =>
    rw [List.cons_append,
      List.find?_cons_of_neg _ (by simp [h a (List.mem_cons_self a r)])]
    exact ih (fun x hx => h x (List.mem_cons_of_mem a hx))

theorem find?_append_some {α : Type} {p : α → Bool} {l₁ : List α} {a : α}
    (h : l₁.find? p = some a) (l₂ : List α) :
    (l₁ ++ l₂).find? p = some a := by
  induction l₁ with
  | nil => simp at h
  | cons x r ih =>
    rw [List.cons_append]
    cases hx : p x with
    | true =>
      rw [List.find?_cons_of_pos _ hx] at h ⊢
      exact h
    | false =>
      rw [List.find?_cons_of_neg _ (by simp [hx])] at h ⊢
      exact ih h

/-- C2 (counterexample): the encounter-order first valid email of the
group is "a@x.com", but the code computes the merged email after the
in-place sort by join time, so the "t1" session's "b@y.com" wins. -/
theorem combine_email_not_encounter_order :
    ([⟨none, some "", some "t2", none, none, none⟩,
      ⟨none, some "a@x.com", some "t2", none, none, none⟩,
      ⟨none, some "b@y.com", some "t1", none, none, none⟩].find?
        validEmail).map emailGet = some "a@x.com" ∧
    emailGet (combine_sessions
      [⟨none, some "", some "t2", none, none, none⟩,
       ⟨none, some "a@x.com", some "t2", none, none, none⟩,
       ⟨none, some "b@y.com", some "t1", none, none, none⟩]) = "b@y.com" ∧
    ("b@y.com" : String) ≠ "a@x.com" := by decide

/-- C2 (amended): for N ≥ 2, the merged email is the first valid email
(non-empty after trimming, raw lower-cased form not "n/a") found scanning
the group in ascending join-time order — the stable-sorted order, not the
encounter order — and "N/A" when no session has a valid email. -/
theorem combine_email_first_valid_sorted (ss : List Session)
    (h : 2 ≤ ss.length) :
    ((∀ s ∈ ss, validEmail s = false) →
      emailGet (combine_sessions ss) = "N/A") ∧
    (∀ pre s post, sortByJoin ss = pre ++ s :: post → validEmail s = true →
      (∀ x ∈ pre, validEmail x = false) →
      emailGet (combine_sessions ss) = emailGet s) := by
  have hb : emailGet (combine_sessions ss) = bestEmail (sortByJoin ss) := rfl
  constructor
  · intro hall
    have hnone : (sortByJoin ss).find? validEmail = none :=
      List.find?_eq_none.2 (fun x hx => by
        simp [hall x ((sortByJoin_perm ss).mem_iff.1 hx)])
    rw [hb]
    unfold bestEmail
    rw [hnone]
  · intro pre s post hsplit hs hpre
    have hfind : (sortByJoin ss).find? validEmail = some s := by
      rw [hsplit, find?_append_of_none hpre, List.find?_cons_of_pos _ hs]
    rw [hb]
    unfold bestEmail
    rw [hfind]

/-- C2 witness: in the counterexample group the sorted order starts with
the valid "b@y.com" session, and the merged email is its email. -/
theorem combine_email_first_valid_sorted_witness :
    emailGet (combine_sessions
      [⟨none, some "", some "t2", none, none, none⟩,
       ⟨none, some "a@x.com", some "t2", none, none, none⟩,
       ⟨none, some "b@y.com", some "t1", none, none, none⟩]) =
      emailGet ⟨none, some "b@y.com", some "t1", none, none, none⟩ :=
  (combine_email_first_valid_sorted _ (by decide)).2 []
    ⟨none, some "b@y.com", some "t1", none, none, none⟩
    [⟨none, some "", some "t2", none, none, none⟩,
     ⟨none, some "a@x.com", some "t2", none, none, none⟩]
    (by decide) (by decide) (by decide)

/-! Facts about the dict-insertion model `updOrAppend`. -/

theorem updOrAppend_map_fst {α : Type} (m : List (String × α)) (k : String)
    (u : α → α) (i : α) :
    (updOrAppend m k u i).map Prod.fst =
      if m.any (fun p => p.1 = k) then m.map Prod.fst
      else m.map Prod.fst ++ [k] := by
  unfold updOrAppend
  by_cases hany : m.any (fun p => p.1 = k)
  · rw [if_pos hany, if_pos hany, List.map_map]
    refine List.map_congr_left ?_
    intro p _
    by_cases hp : p.1 = k <;> simp [hp]
  · rw [if_neg hany, if_neg hany]
    simp

theorem updOrAppend_nodup {α : Type} {m : List (String × α)} (k : String)
    (u : α → α) (i : α) (hn : (m.map Prod.fst).Nodup) :
    ((updOrAppend m k u i).map Prod.fst).Nodup := by
  rw [updOrAppend_map_fst]
  by_cases hany : m.any (fun p => p.1 = k)
  · rw [if_pos hany]; exact hn
  · rw [if_neg hany]
    have hk : k ∉ m.map Prod.fst := by
      intro hmem
      obtain ⟨p, hp, hpk⟩ := List.mem_map.1 hmem
      exact hany (List.any_eq_true.2 ⟨p, hp, by simp [hpk]⟩)
    exact (List.perm_append_singleton k (m.map Prod.fst)).nodup_iff.2
      (List.nodup_cons.2 ⟨hk, hn⟩)

theorem find?_updOrAppend_self {α : Type} (m : List (String × α))
    (k : String) (u : α → α) (i : α) :
    (updOrAppend m k u i).find? (fun p => p.1 = k) =
      some (k, match m.find? (fun p => p.1 = k) with
               | some p => u p.2
               | none => i) := by
  unfold updOrAppend
  by_cases hany : m.any (fun p => p.1 = k)
  · rw [if_pos hany, List.find?_map]
    have hpred : ((fun p : String × α => decide (p.1 = k)) ∘
        (fun p => if p.1 = k then (p.1, u p.2) else p)) =
        (fun p : String × α => decide (p.1 = k)) := by
      funext p
      by_cases hp : p.1 = k <;> simp [hp]
    rw [hpred]
    have hsome : (m.find? (fun p => p.1 = k)).isSome := by
      rw [List.find?_isSome]
      obtain ⟨x, hx, hxk⟩ := List.any_eq_true.1 hany
      exact ⟨x, hx, hxk⟩
    obtain ⟨p, hp⟩ := Option.isSome_iff_exists.1 hsome
    rw [hp]
    have hk : p.1 = k := by simpa using List.find?_some hp
    show some (if p.1 = k then (p.1, u p.2) else p) = _
    rw [if_pos hk, hk]
  · rw [if_neg hany]
    have hall : ∀ x ∈ m, (fun p : String × α => decide (p.1 = k)) x = false := by
      intro x hx
      cases hdec : decide (x.1 = k) with
      | false => exact hdec
      | true => exact absurd (List.any_eq_true.2 ⟨x, hx, hdec⟩) hany
    have hnone : m.find? (fun p => p.1 = k) = none :=
      List.find?_eq_none.2 (fun x hx => by simpa using hall x hx)
    rw [find?_append_of_none hall, hnone]
    rw [List.find?_cons_of_pos _ (by simp)]

theorem find?_updOrAppend_other {α : Type} (m : List (String × α))
    {q k : String} (hqk : q ≠ k) (u : α → α) (i : α) :
    (updOrAppend m k u i).find? (fun p => p.1 = q) =
      m.find? (fun p => p.1 = q) := by
  unfold updOrAppend
  by_cases hany : m.any (fun p => p.1 = k)
  · rw [if_pos hany, List.find?_map]
    have hpred : ((fun p : String × α => decide (p.1 = q)) ∘
        (fun p => if p.1 = k then (p.1, u p.2) else p)) =
        (fun p : String × α => decide (p.1 = q)) := by
      funext p
      by_cases hp : p.1 = k <;> simp [hp, hqk.symm]
    rw [hpred]
    cases hfind : m.find? (fun p => p.1 = q) with
    | none => rfl
    | some p =>
      have hq : p.1 = q := by simpa using List.find?_some hfind
      show some (if p.1 = k then (p.1, u p.2) else p) = _
      rw [if_neg (by rw [hq]; exact hqk)]
  · rw [if_neg hany]
    cases hfind : m.find? (fun p => p.1 = q) with
    | none =>
      have hall : ∀ x ∈ m, (fun p : String × α => decide (p.1 = q)) x = false := by
        intro x hx
        have := List.find?_eq_none.1 hfind x hx
        simpa using this
      rw [find?_append_of_none hall,
        List.find?_cons_of_neg _ (by simp [hqk.symm])]
      rfl
    | some p => exact find?_append_some hfind _

/-! The grouping loop characterized: the group found under key `k` is
exactly the encounter-order filter of the processed sessions with that
identity key. -/

theorem foldl_groups_find (ps : List Session) :
    ∀ (gs : List (String × List Session)) (k : String),
    (ps.foldl (fun gs p => addToGroups gs (keyOf p) p) gs).find?
        (fun g => g.1 = k) =
      match gs.find? (fun g => g.1 = k) with
      | some g => some (k, g.2 ++ ps.filter (fun p => keyOf p = k))
      | none =>
        if ps.any (fun p => keyOf p = k) then
          some (k, ps.filter (fun p => keyOf p = k))
        else none := by
  induction ps with
  | nil =>
    intro gs k
    rw [List.foldl_nil]
    cases hfind : gs.find? (fun g => g.1 = k) with
    | none => simp
    | some g =>
      have hk : g.1 = k := by simpa using List.find?_some hfind
      simp [← hk]
  | cons p ps ih =>
    intro gs k
    rw [List.foldl_cons, ih]
    by_cases hk : keyOf p = k
    · subst hk
      rw [show addToGroups gs (keyOf p) p =
            updOrAppend gs (keyOf p) (fun g => g ++ [p]) [p] from rfl,
        find?_updOrAppend_self]
      cases hfind : gs.find? (fun g => g.1 = keyOf p) with
      | none =>
        simp [List.filter_cons, List.any_cons]
      | some g =>
        simp [List.filter_cons, List.append_assoc]
    · rw [show addToGroups gs (keyOf p) p =
            updOrAppend gs (keyOf p) (fun g => g ++ [p]) [p] from rfl,
        find?_updOrAppend_other _ (fun he => hk he.symm)]
      have hfilt : (p :: ps).filter (fun p => keyOf p = k) =
          ps.filter (fun p => keyOf p = k) := by
        rw [List.filter_cons_of_neg (by simp [hk])]
      have hany : ((p :: ps).any (fun p => keyOf p = k)) =
          (ps.any (fun p => keyOf p = k)) := by
        simp [List.any_cons, hk]
      rw [hfilt, hany]

theorem groups_find_eq (ps : List Session) (k : String) :
    (groupParticipants ps).find? (fun g => g.1 = k) =
      if ps.any (fun p => keyOf p = k) then
        some (k, ps.filter (fun p => keyOf p = k))
      else none := by
  have h := foldl_groups_find ps [] k
  simpa [groupParticipants] using h

theorem groups_keys_nodup (ps : List Session) :
    ((groupParticipants ps).map Prod.fst).Nodup := by
  have key : ∀ (l : List Session) (gs : List (String × List Session)),
      (gs.map Prod.fst).Nodup →
      ((l.foldl (fun gs p => addToGroups gs (keyOf p) p) gs).map
        Prod.fst).Nodup := by
    intro l
    induction l with
    | nil => intro gs h; exact h
    | cons p r ih =>
      intro gs h
      rw [List.foldl_cons]
      exact ih _ (updOrAppend_nodup (keyOf p) (fun g => g ++ [p]) [p] h)
  exact key ps [] (by simp)

theorem find?_eq_of_mem_nodup {α : Type} : ∀ {m : List (String × α)},
    (m.map Prod.fst).Nodup → ∀ {k : String} {v : α}, (k, v) ∈ m →
    m.find? (fun p => p.1 = k) = some (k, v)
  | [], _, _, _, hm => absurd hm (List.not_mem_nil _)
  | q :: m, hn, k, v, hm => by
    rcases List.mem_cons.1 hm with rfl | hm
    · rw [List.find?_cons_of_pos _ (by simp)]
    · have hkm : k ∈ m.map Prod.fst :=
        List.mem_map.2 ⟨(k, v), hm, rfl⟩
      have hqk : q.1 ≠ k := by
        intro he
        exact (List.nodup_cons.1 (by simpa using hn)).1 (he ▸ hkm)
      rw [List.find?_cons_of_neg _ (by simp [hqk])]
      exact find?_eq_of_mem_nodup (List.nodup_cons.1 (by simpa using hn)).2 hm

/-- C3: the deduplicator groups two sessions together exactly when they
share the identity key — trimmed lower-cased email when that is non-empty
and not "n/a", else the trimmed lower-cased name — and every session lands
in the group labelled by its own key. -/
theorem dedup_groups_iff (ps : List Session) (s t : Session)
    (hs : s ∈ ps) (ht : t ∈ ps) :
    ((∃ g ∈ groupParticipants ps, s ∈ g.2 ∧ t ∈ g.2) ↔ keyOf s = keyOf t) ∧
    (∃ g ∈ groupParticipants ps, g.1 = keyOf s ∧ s ∈ g.2) := by
  have hcontents : ∀ g ∈ groupParticipants ps, ∀ x ∈ g.2, keyOf x = g.1 := by
    intro g hg x hx
    have hfind := find?_eq_of_mem_nodup (groups_keys_nodup ps)
      (show (g.1, g.2) ∈ groupParticipants ps from hg)
    rw [groups_find_eq] at hfind
    by_cases hany : ps.any (fun p => keyOf p = g.1)
    · rw [if_pos hany] at hfind
      have h2 : ps.filter (fun p => keyOf p = g.1) = g.2 := by
        have := Option.some.inj hfind
        exact congrArg Prod.snd this
      rw [← h2] at hx
      simpa using (List.mem_filter.1 hx).2
    · rw [if_neg hany] at hfind
      exact absurd hfind (by simp)
  have hmem_of : ∀ x ∈ ps,
      ∃ g ∈ groupParticipants ps, g.1 = keyOf x ∧ x ∈ g.2 := by
    intro x hx
    have hany : ps.any (fun p => keyOf p = keyOf x) = true :=
      List.any_eq_true.2 ⟨x, hx, by simp⟩
    have hfind := groups_find_eq ps (keyOf x)
    rw [if_pos hany] at hfind
    exact ⟨(keyOf x, ps.filter (fun p => keyOf p = keyOf x)),
      List.mem_of_find?_eq_some hfind, rfl,
      List.mem_filter.2 ⟨hx, by simp⟩⟩
  refine ⟨⟨?_, ?_⟩, hmem_of s hs⟩
  · rintro ⟨g, hg, hsg, htg⟩
    exact (hcontents g hg s hsg).trans (hcontents g hg t htg).symm
  · intro hkey
    obtain ⟨g, hg, hgk, hsg⟩ := hmem_of s hs
    obtain ⟨g2, hg2, hgk2, htg2⟩ := hmem_of t ht
    have hgeq : g = g2 := by
      have h1 := find?_eq_of_mem_nodup (groups_keys_nodup ps)
        (show (g.1, g.2) ∈ groupParticipants ps from hg)
      have h2 := find?_eq_of_mem_nodup (groups_keys_nodup ps)
        (show (g2.1, g2.2) ∈ groupParticipants ps from hg2)
      rw [hgk, hkey] at h1
      rw [hgk2] at h2
      have hpair := Option.some.inj (h1.symm.trans h2)
      have hsnd := congrArg Prod.snd hpair
      have hfst : g.1 = g2.1 := hgk.trans (hkey.trans hgk2.symm)
      exact Prod.ext hfst hsnd
    exact ⟨g, hg, hsg, hgeq ▸ htg2⟩

/-- C3 witness: "A@X.com" and "a@x.com " collapse into one group, and two
empty-email sessions named "Bob"/"BOB" share the group keyed "bob". -/
theorem dedup_groups_iff_witness :
    (∃ g ∈ groupParticipants
        [⟨some "Ann", some "A@X.com", none, none, none, none⟩,
         ⟨some "Annie", some "a@x.com ", none, none, none, none⟩],
      (⟨some "Ann", some "A@X.com", none, none, none, none⟩ : Session) ∈ g.2 ∧
      (⟨some "Annie", some "a@x.com ", none, none, none, none⟩ : Session) ∈ g.2) ∧
    (∃ g ∈ groupParticipants
        [⟨some "Bob", some "", none, none, none, none⟩,
         ⟨some "BOB", some "", none, none, none, none⟩],
      g.1 = "bob" ∧
      (⟨some "Bob", some "", none, none, none, none⟩ : Session) ∈ g.2) := by
  constructor
  · exact ((dedup_groups_iff
      [⟨some "Ann", some "A@X.com", none, none, none, none⟩,
       ⟨some "Annie", some "a@x.com ", none, none, none, none⟩]
      ⟨some "Ann", some "A@X.com", none, none, none, none⟩
      ⟨some "Annie", some "a@x.com ", none, none, none, none⟩
      (by decide) (by decide)).1).mpr (by decide)
  · have h := (dedup_groups_iff
      [⟨some "Bob", some "", none, none, none, none⟩,
       ⟨some "BOB", some "", none, none, none, none⟩]
      ⟨some "Bob", some "", none, none, none, none⟩
      ⟨some "BOB", some "", none, none, none, none⟩
      (by decide) (by decide)).2
    have hkey : keyOf ⟨some "Bob", some "", none, none, none, none⟩ = "bob" := by
      decide
    rw [hkey] at h
    exact h

/-! Equations for the report loop. -/

theorem generate_report_nil (convD convT : String → Option String)
    (fetch : Occurrence → List Session) :
    generate_report convD convT fetch [] = ([], []) := rfl

theorem generate_report_cons (convD convT : String → Option String)
    (fetch : Occurrence → List Session) (o : Occurrence)
    (rest : List Occurrence) :
    generate_report convD convT fetch (o :: rest) =
      ((rowsForOccurrence convD convT fetch o).1 ++
        (generate_report convD convT fetch rest).1,
       (rowsForOccurrence convD convT fetch o).2 ++
        (generate_report convD convT fetch rest).2) := rfl

theorem generate_report_append (convD convT : String → Option String)
    (fetch : Occurrence → List Session) (l₁ l₂ : List Occurrence) :
    generate_report convD convT fetch (l₁ ++ l₂) =
      ((generate_report convD convT fetch l₁).1 ++
        (generate_report convD convT fetch l₂).1,
       (generate_report convD convT fetch l₁).2 ++
        (generate_report convD convT fetch l₂).2) := by
  induction l₁ with
  | nil => simp [generate_report_nil]
  | cons o r ih =>
    rw [List.cons_append, generate_report_cons, ih, generate_report_cons]
    simp [List.append_assoc]

/-- C5: an occurrence whose fetched session list is empty contributes
exactly one ReportRow, named "No attendees", and exactly one "No
attendees" entry to the flat name list, wherever it sits in the run. -/
theorem report_no_attendees (convD convT : String → Option String)
    (fetch : Occurrence → List Session) (pre post : List Occurrence)
    (o : Occurrence) (h : fetch o = []) :
    generate_report convD convT fetch (pre ++ o :: post) =
      ((generate_report convD convT fetch pre).1 ++
        ⟨occDate convD o, occTime convT o, "No attendees"⟩ ::
          (generate_report convD convT fetch post).1,
       (generate_report convD convT fetch pre).2 ++
        "No attendees" :: (generate_report convD convT fetch post).2) := by
  rw [generate_report_append, generate_report_cons]
  have hrow : rowsForOccurrence convD convT fetch o =
      ([⟨occDate convD o, occTime convT o, "No attendees"⟩],
       ["No attendees"]) := by
    unfold rowsForOccurrence
    rw [h]
  rw [hrow]
  rfl

/-- C5 witness: a single occurrence with no sessions yields the lone
placeholder row and name. -/
theorem report_no_attendees_witness :
    generate_report (fun s => some s) (fun s => some s) (fun _ => [])
        ([] ++ (⟨none, none, none, none⟩ : Occurrence) :: []) =
      ((generate_report (fun s => some s) (fun s => some s) (fun _ => []) []).1 ++
        ⟨occDate (fun s => some s) ⟨none, none, none, none⟩,
         occTime (fun s => some s) ⟨none, none, none, none⟩, "No attendees"⟩ ::
          (generate_report (fun s => some s) (fun s => some s) (fun _ => []) []).1,
       (generate_report (fun s => some s) (fun s => some s) (fun _ => []) []).2 ++
        "No attendees" ::
          (generate_report (fun s => some s) (fun s => some s) (fun _ => []) []).2) :=
  report_no_attendees (fun s => some s) (fun s => some s) (fun _ => []) [] []
    ⟨none, none, none, none⟩ rfl

/-- C9 (counterexample): a session whose name field is present but equal
to the empty string flows through as "", not as the claimed "Unknown" —
`dict.get("name", "Unknown")` only substitutes when the key is absent. -/
theorem report_empty_name_not_unknown :
    (generate_report (fun s => some s) (fun s => some s)
      (fun _ => [⟨some "", none, none, none, none, none⟩])
      [⟨none, none, none, none⟩]).1 =
      [⟨"Unknown", "Unknown", ""⟩] ∧ ("" : String) ≠ "Unknown" := by decide

/-- Every group the grouping loop builds is nonempty. -/
theorem groups_nonempty (ps : List Session) :
    ∀ g ∈ groupParticipants ps, g.2 ≠ [] := by
  intro g hg
  have hfind := find?_eq_of_mem_nodup (groups_keys_nodup ps)
    (show (g.1, g.2) ∈ groupParticipants ps from hg)
  rw [groups_find_eq] at hfind
  by_cases hany : ps.any (fun p => keyOf p = g.1)
  · rw [if_pos hany] at hfind
    have h2 : ps.filter (fun p => keyOf p = g.1) = g.2 :=
      congrArg Prod.snd (Option.some.inj hfind)
    obtain ⟨x, hx, hk⟩ := List.any_eq_true.1 hany
    intro he
    have hxf : x ∈ ps.filter (fun p => keyOf p = g.1) :=
      List.mem_filter.2 ⟨hx, hk⟩
    rw [h2, he] at hxf
    exact List.not_mem_nil x hxf
  · rw [if_neg hany] at hfind
    exact absurd hfind (by simp)

/-- C9 (amended): in every produced output, each ReportRow's participant
name is either the "No attendees" placeholder or the governing session's
name field read with default "Unknown" — the group's single session, or,
when `_combine_sessions` merged the group, the first session after the
join-time sort — and that read yields "Unknown" exactly when the name
field is absent, while a present name (even the empty string) is carried
through verbatim. -/
theorem report_participant_names (convD convT : String → Option String)
    (fetch : Occurrence → List Session) (ms : List Occurrence) :
    (∀ row ∈ (generate_report convD convT fetch ms).1,
      row.pname = "No attendees" ∨
      ∃ o ∈ ms, ∃ g ∈ groupParticipants (fetch o),
        ((∃ s, g.2 = [s] ∧ row.pname = nameGetU s) ∨
         (2 ≤ g.2.length ∧
           row.pname = nameGetU ((sortByJoin g.2).headI)))) ∧
    (∀ s : Session, (s.name = none → nameGetU s = "Unknown") ∧
      (∀ str, s.name = some str → nameGetU s = str)) := by
  have hocc : ∀ (o : Occurrence) (row : ReportRow),
      row ∈ (rowsForOccurrence convD convT fetch o).1 →
      row.pname = "No attendees" ∨
      ∃ g ∈ groupParticipants (fetch o),
        ((∃ s, g.2 = [s] ∧ row.pname = nameGetU s) ∨
         (2 ≤ g.2.length ∧
           row.pname = nameGetU ((sortByJoin g.2).headI))) := by
    intro o row hrow
    unfold rowsForOccurrence at hrow
    cases hf : fetch o with
    | nil =>
      rw [hf] at hrow
      left
      have := List.mem_singleton.1 hrow
      rw [this]
    | cons p ps =>
      rw [hf] at hrow
      right
      obtain ⟨q, hq, rfl⟩ := List.mem_map.1 hrow
      unfold deduplicate_participants at hq
      obtain ⟨g, hg, rfl⟩ := List.mem_map.1 hq
      refine ⟨g, hg, ?_⟩
      have hne := groups_nonempty (p :: ps) g hg
      match hg2 : g.2 with
      | [] => exact absurd hg2 hne
      | [s] =>
        left
        exact ⟨s, rfl, by rw [mergeGroup_singleton]⟩
      | a :: b :: r =>
        right
        refine ⟨Nat.le_add_left 2 r.length, ?_⟩
        rw [mergeGroup_cons_cons]
        rfl
  refine ⟨?_, fun s =>
    ⟨fun hn => by simp [nameGetU, hn],
     fun str hn => by simp [nameGetU, hn]⟩⟩
  induction ms with
  | nil =>
    intro row hrow
    rw [generate_report_nil] at hrow
    exact absurd hrow (List.not_mem_nil row)
  | cons o rest ih =>
    intro row hrow
    rw [generate_report_cons] at hrow
    rcases List.mem_append.1 hrow with hmem | hmem
    · rcases hocc o row hmem with hpl | ⟨g, hg, hcase⟩
      · exact Or.inl hpl
      · exact Or.inr ⟨o, List.mem_cons_self o rest, g, hg, hcase⟩
    · rcases ih row hmem with hpl | ⟨o2, ho2, g, hg, hcase⟩
      · exact Or.inl hpl
      · exact Or.inr ⟨o2, List.mem_cons_of_mem o ho2, g, hg, hcase⟩

/-- C9 witness: a merged two-session group whose first-sorted session has
an absent name yields the row name "Unknown"; the name read itself is
checked on that session. -/
theorem report_participant_names_witness :
    ((⟨"Unknown", "Unknown", "Unknown"⟩ : ReportRow).pname =
        "No attendees" ∨
      ∃ o ∈ [(⟨none, none, none, none⟩ : Occurrence)],
        ∃ g ∈ groupParticipants
          ((fun _ => [⟨none, none, some "t1", none, none, none⟩,
                      ⟨some "", none, some "t2", none, none, none⟩])
            o),
          ((∃ s, g.2 = [s] ∧
            (⟨"Unknown", "Unknown", "Unknown"⟩ : ReportRow).pname =
              nameGetU s) ∨
           (2 ≤ g.2.length ∧
            (⟨"Unknown", "Unknown", "Unknown"⟩ : ReportRow).pname =
              nameGetU ((sortByJoin g.2).headI)))) ∧
    nameGetU ⟨none, none, some "t1", none, none, none⟩ = "Unknown" := by
  constructor
  · exact (report_participant_names (fun s => some s) (fun s => some s)
      (fun _ => [⟨none, none, some "t1", none, none, none⟩,
                 ⟨some "", none, some "t2", none, none, none⟩])
      [⟨none, none, none, none⟩]).1
      ⟨"Unknown", "Unknown", "Unknown"⟩ (by decide)
  · exact ((report_participant_names (fun s => some s) (fun s => some s)
      (fun _ => []) []).2
      ⟨none, none, some "t1", none, none, none⟩).1 rfl

/-- C10: the two lists returned by the report builder are aligned — equal
length and, index by index, the i-th row's participant name equals the
i-th entry of the flat name list. -/
theorem report_names_aligned (convD convT : String → Option String)
    (fetch : Occurrence → List Session) (ms : List Occurrence) :
    (generate_report convD convT fetch ms).1.map ReportRow.pname =
      (generate_report convD convT fetch ms).2 ∧
    (generate_report convD convT fetch ms).1.length =
      (generate_report convD convT fetch ms).2.length ∧
    ∀ (i : Nat) (h1 : i < (generate_report convD convT fetch ms).1.length)
      (h2 : i < (generate_report convD convT fetch ms).2.length),
      ((generate_report convD convT fetch ms).1.get ⟨i, h1⟩).pname =
        (generate_report convD convT fetch ms).2.get ⟨i, h2⟩ := by
  have hmap : ∀ (l : List Occurrence),
      (generate_report convD convT fetch l).1.map ReportRow.pname =
        (generate_report convD convT fetch l).2 := by
    intro l
    induction l with
    | nil => rfl
    | cons o r ih =>
      rw [generate_report_cons]
      show ((rowsForOccurrence convD convT fetch o).1 ++
          (generate_report convD convT fetch r).1).map ReportRow.pname = _
      rw [List.map_append, ih]
      congr 1
      unfold rowsForOccurrence
      cases fetch o with
      | nil => rfl
      | cons p ps =>
        show (List.map _ (deduplicate_participants (p :: ps))).map
          ReportRow.pname = _
        rw [List.map_map]
        rfl
  have hlen := congrArg List.length (hmap ms)
  rw [List.length_map] at hlen
  refine ⟨hmap ms, hlen, ?_⟩
  have hget : ∀ (l1 : List ReportRow) (l2 : List String),
      l1.map ReportRow.pname = l2 →
      ∀ (i : Nat) (h1 : i < l1.length) (h2 : i < l2.length),
      (l1.get ⟨i, h1⟩).pname = l2.get ⟨i, h2⟩ := by
    intro l1 l2 he i h1 h2
    subst he
    rw [List.get_eq_getElem, List.get_eq_getElem, List.getElem_map]
  exact hget _ _ (hmap ms)

/-- C10 witness: a one-occurrence run with no sessions, checked at index
0 of both lists. -/
theorem report_names_aligned_witness :
    ((generate_report (fun s => some s) (fun s => some s) (fun _ => [])
        [⟨none, none, none, none⟩]).1.get ⟨0, by decide⟩).pname =
      (generate_report (fun s => some s) (fun s => some s) (fun _ => [])
        [⟨none, none, none, none⟩]).2.get ⟨0, by decide⟩ :=
  (report_names_aligned (fun s => some s) (fun s => some s) (fun _ => [])
    [⟨none, none, none, none⟩]).2.2 0 (by decide) (by decide)

/-! `get_meeting_instances` facts. -/

theorem insKey_occKey {keep : Occurrence → Bool} {o : Occurrence}
    {k : String} (h : insKey keep o = some k) : occKey o = some k := by
  unfold insKey at h
  by_cases h1 : startGet o = ""
  · rw [if_pos h1] at h
    exact absurd h (by simp)
  · rw [if_neg h1] at h
    by_cases h2 : keep o
    · rw [if_pos h2] at h
      cases hk : occKey o with
      | none => rw [hk] at h; exact absurd h (by simp)
      | some k2 =>
        rw [hk] at h
        have h4 : (if k2 ≠ "" then some k2 else none) = some k := h
        by_cases h3 : k2 ≠ ""
        · rw [if_pos h3] at h4
          exact h4
        · rw [if_neg h3] at h4
          exact absurd h4 (by simp)
    · rw [if_neg h2] at h
      exact absurd h (by simp)

theorem mem_updOrAppend {α : Type} {m : List (String × α)} {k : String}
    {u : α → α} {i : α} {q : String × α} (hq : q ∈ updOrAppend m k u i) :
    (∃ p ∈ m, q = p) ∨ (∃ p ∈ m, p.1 = k ∧ q = (k, u p.2)) ∨ q = (k, i) := by
  unfold updOrAppend at hq
  by_cases hany : m.any (fun p => p.1 = k)
  · rw [if_pos hany] at hq
    obtain ⟨p, hp, hpq⟩ := List.mem_map.1 hq
    by_cases hpk : p.1 = k
    · right; left; exact ⟨p, hp, hpk, by rw [← hpq, if_pos hpk, hpk]⟩
    · left; exact ⟨p, hp, by rw [← hpq, if_neg hpk]⟩
  · rw [if_neg hany] at hq
    rcases List.mem_append.1 hq with hmem | hmem
    · left; exact ⟨q, hmem, rfl⟩
    · right; right; exact List.mem_singleton.1 hmem

theorem foldl_inst_find (keep : Occurrence → Bool) :
    ∀ (l : List Occurrence) (m₀ : List (String × Occurrence)) (k : String),
    ((l.foldl (fun m o =>
        match insKey keep o with
        | some k2 => dictInsert m k2 o
        | none => m) m₀).find? (fun p => p.1 = k)) =
      match l.reverse.find? (fun o => insKey keep o = some k) with
      | some o => some (k, o)
      | none => m₀.find? (fun p => p.1 = k) := by
  intro l
  induction l with
  | nil => intro m₀ k; simp
  | cons o l ih =>
    intro m₀ k
    rw [List.foldl_cons, ih, List.reverse_cons]
    cases hfind : l.reverse.find? (fun o => insKey keep o = some k) with
    | some o2 => rw [find?_append_some hfind]
    | none =>
      have hall : ∀ x ∈ l.reverse,
          (fun o => decide (insKey keep o = some k)) x = false := by
        intro x hx
        have := List.find?_eq_none.1 hfind x hx
        simpa using this
      rw [find?_append_of_none hall]
      by_cases hins : insKey keep o = some k
      · rw [List.find?_cons_of_pos _ (by simp [hins]), hins]
        show ((dictInsert m₀ k o).find? fun p => p.1 = k) = some (k, o)
        rw [show dictInsert m₀ k o =
              updOrAppend m₀ k (fun _ => o) o from rfl,
          find?_updOrAppend_self]
        cases m₀.find? (fun p => p.1 = k) <;> rfl
      · rw [List.find?_cons_of_neg _ (by simp [hins]), List.find?_nil]
        cases hik : insKey keep o with
        | none => rfl
        | some k2 =>
          have hk2 : k ≠ k2 := by
            intro he
            rw [he] at hins
            exact hins hik
          show ((dictInsert m₀ k2 o).find? fun p => p.1 = k) = _
          rw [show dictInsert m₀ k2 o =
                updOrAppend m₀ k2 (fun _ => o) o from rfl,
            find?_updOrAppend_other _ hk2]

theorem foldl_inst_invariant (keep : Occurrence → Bool) :
    ∀ (l : List Occurrence) (m₀ : List (String × Occurrence)),
    (m₀.map Prod.fst).Nodup →
    (∀ p ∈ m₀, insKey keep p.2 = some p.1) →
    (((l.foldl (fun m o =>
        match insKey keep o with
        | some k2 => dictInsert m k2 o
        | none => m) m₀).map Prod.fst).Nodup ∧
      ∀ p ∈ l.foldl (fun m o =>
        match insKey keep o with
        | some k2 => dictInsert m k2 o
        | none => m) m₀, insKey keep p.2 = some p.1) := by
  intro l
  induction l with
  | nil => intro m₀ h1 h2; exact ⟨h1, h2⟩
  | cons o l ih =>
    intro m₀ h1 h2
    rw [List.foldl_cons]
    cases hik : insKey keep o with
    | none => exact ih m₀ h1 h2
    | some k2 =>
      refine ih _ (updOrAppend_nodup k2 (fun _ => o) o h1) ?_
      intro p hp
      rcases mem_updOrAppend hp with ⟨p2, hp2, rfl⟩ | ⟨p2, hp2, hpk, rfl⟩ | rfl
      · exact h2 _ hp2
      · exact hik
      · exact hik

/-- C6: the merged occurrence list of `get_meeting_instances` has exactly
one entry per occurrence identifier, and when the second-merged source
(the id-matching user meetings) contributes an occurrence for a key, the
retained copy for that key is the (last) one from that second source. -/
theorem instances_dedup (instancesResp user_meetings : List Occurrence)
    (meeting_id : String) (keep : Occurrence → Bool) (k : String)
    (h : ∃ o ∈ matchingOf user_meetings meeting_id, insKey keep o = some k) :
    ((get_meeting_instances instancesResp user_meetings meeting_id keep).map
      occKey).Nodup ∧
    ∃ o ∈ matchingOf user_meetings meeting_id, insKey keep o = some k ∧
      o ∈ get_meeting_instances instancesResp user_meetings meeting_id keep ∧
      ∀ v ∈ get_meeting_instances instancesResp user_meetings meeting_id keep,
        insKey keep v = some k → v = o := by
  set all := instancesResp ++ matchingOf user_meetings meeting_id with hall
  set m := all.foldl (fun m o =>
      match insKey keep o with
      | some k2 => dictInsert m k2 o
      | none => m) [] with hm
  have hout : get_meeting_instances instancesResp user_meetings meeting_id keep
      = m.map Prod.snd := rfl
  have hinv := foldl_inst_invariant keep all [] (by simp) (by simp)
  rw [← hm] at hinv
  have hnodup : ((m.map Prod.snd).map occKey).Nodup := by
    have heq : (m.map Prod.snd).map occKey = (m.map Prod.fst).map some := by
      rw [List.map_map, List.map_map]
      exact List.map_congr_left (fun p hp => insKey_occKey (hinv.2 p hp))
    rw [heq]
    exact hinv.1.map (Option.some_injective _)
  have hmsome : ((matchingOf user_meetings meeting_id).reverse.find?
      (fun o => insKey keep o = some k)).isSome := by
    rw [List.find?_isSome]
    obtain ⟨o2, ho2, hok⟩ := h
    exact ⟨o2, List.mem_reverse.2 ho2, by simp [hok]⟩
  obtain ⟨o, ho⟩ := Option.isSome_iff_exists.1 hmsome
  have hrevfind : all.reverse.find? (fun o => insKey keep o = some k)
      = some o := by
    rw [hall, List.reverse_append]
    exact find?_append_some ho _
  have hoins : insKey keep o = some k := by simpa using List.find?_some ho
  have homatch : o ∈ matchingOf user_meetings meeting_id :=
    List.mem_reverse.1 (List.mem_of_find?_eq_some ho)
  have hfold := foldl_inst_find keep all [] k
  rw [← hm, hrevfind] at hfold
  have hmem : (k, o) ∈ m := List.mem_of_find?_eq_some hfold
  refine ⟨by rw [hout]; exact hnodup, o, homatch, hoins, ?_, ?_⟩
  · rw [hout]
    exact List.mem_map.2 ⟨(k, o), hmem, rfl⟩
  · intro v hv hvk
    rw [hout] at hv
    obtain ⟨p, hp, hpv⟩ := List.mem_map.1 hv
    have hpk : p.1 = k := by
      have hins := hinv.2 p hp
      rw [hpv, hvk] at hins
      exact (Option.some.inj hins).symm
    have hpkv : (k, v) ∈ m := by
      have : p = (k, v) := Prod.ext hpk hpv
      exact this ▸ hp
    have hvo := find?_eq_of_mem_nodup hinv.1 hpkv
    rw [hfold] at hvo
    exact (congrArg Prod.snd (Option.some.inj hvo)).symm

/-- C6 witness: the "789" occurrence appears in both sources with
different topics; the merged list keeps exactly the second source's copy. -/
theorem instances_dedup_witness :
    ((get_meeting_instances
        [⟨some "Old", some "2024-01-01T00:00:00", some "789", none⟩]
        [⟨some "New", some "2024-01-02T00:00:00", some "789", some "77"⟩]
        "77" (fun _ => true)).map occKey).Nodup ∧
    ∃ o ∈ matchingOf
        [⟨some "New", some "2024-01-02T00:00:00", some "789", some "77"⟩]
        "77",
      insKey (fun _ => true) o = some "789" ∧
      o ∈ get_meeting_instances
        [⟨some "Old", some "2024-01-01T00:00:00", some "789", none⟩]
        [⟨some "New", some "2024-01-02T00:00:00", some "789", some "77"⟩]
        "77" (fun _ => true) ∧
      ∀ v ∈ get_meeting_instances
        [⟨some "Old", some "2024-01-01T00:00:00", some "789", none⟩]
        [⟨some "New", some "2024-01-02T00:00:00", some "789", some "77"⟩]
        "77" (fun _ => true),
        insKey (fun _ => true) v = some "789" → v = o :=
  instances_dedup
    [⟨some "Old", some "2024-01-01T00:00:00", some "789", none⟩]
    [⟨some "New", some "2024-01-02T00:00:00", some "789", some "77"⟩]
    "77" (fun _ => true) "789"
    ⟨⟨some "New", some "2024-01-02T00:00:00", some "789", some "77"⟩,
      by decide, by decide⟩

/-- C8 (counterexample): `"garbage"` is neither empty nor parseable, and
`to_pst` returns it unchanged instead of the claimed `"Unknown"`. -/
theorem to_pst_unparseable_passthrough :
    strptimeOk (pyTake "garbage" 19) = false ∧
    to_pst (fun s => some s) "garbage" = "garbage" ∧
    ("garbage" : String) ≠ "Unknown" := by decide

/-- C8 (amended): both converters return `"Unknown"` exactly for the empty
input and the literal input `"Unknown"`; on any failure inside the `try` —
the 19-character prefix failing to parse, or the timezone pipeline raising
(e.g. `OverflowError` from `astimezone` on year-1 instants) — they return
the original input, truncated to five characters by the time-only variant
when longer than five; when the parse and the pipeline both succeed they
return the converted value — a total function, never an error. -/
theorem to_pst_spec (convD convT : String → Option String) (s : String) :
    ((s = "" ∨ s = "Unknown") →
      to_pst convD s = "Unknown" ∧ to_pst_time_only convT s = "Unknown") ∧
    (¬ (s = "" ∨ s = "Unknown") →
      ((strptimeOk (pyTake s 19) = false ∨ convD (pyTake s 19) = none) →
        to_pst convD s = s) ∧
      ((strptimeOk (pyTake s 19) = false ∨ convT (pyTake s 19) = none) →
        to_pst_time_only convT s =
          (if 5 < pyLen s then pyTake s 5 else s)) ∧
      (∀ out, strptimeOk (pyTake s 19) = true →
        convD (pyTake s 19) = some out → to_pst convD s = out) ∧
      (∀ out, strptimeOk (pyTake s 19) = true →
        convT (pyTake s 19) = some out → to_pst_time_only convT s = out)) := by
  refine ⟨fun h => ?_, fun h => ⟨?_, ?_, ?_, ?_⟩⟩
  · constructor <;> simp only [to_pst, to_pst_time_only, if_pos h]
  · rintro (hp | hc)
    · simp only [to_pst, if_neg h, hp]
      rfl
    · by_cases hp : strptimeOk (pyTake s 19) = true
      · simp only [to_pst, if_neg h, hp, if_pos, hc]
        rfl
      · simp only [to_pst, if_neg h, if_neg hp]
        rfl
  · rintro (hp | hc)
    · simp only [to_pst_time_only, if_neg h, hp]
      rfl
    · by_cases hp : strptimeOk (pyTake s 19) = true
      · simp only [to_pst_time_only, if_neg h, hp, if_pos, hc]
        rfl
      · simp only [to_pst_time_only, if_neg h, if_neg hp]
        rfl
  · intro out hp hc
    simp only [to_pst, if_neg h, hp, if_pos, hc]
    rfl
  · intro out hp hc
    simp only [to_pst_time_only, if_neg h, hp, if_pos, hc]
    rfl

/-- C8 witness: the empty input; a lowercase-`t` input that parses and
converts; a year-1 input whose conversion raises and passes through; and
an unparseable long input for the truncating variant. -/
theorem to_pst_spec_witness :
    to_pst (fun s => some s) "" = "Unknown" ∧
    to_pst (fun _ => some "X") "2024-01-15t10:30:00" = "X" ∧
    to_pst (fun _ => none) "0001-01-01T00:00:00" = "0001-01-01T00:00:00" ∧
    to_pst_time_only (fun s => some s) "garbage!" = "garba" := by
  refine ⟨?_, ?_, ?_, ?_⟩
  · exact ((to_pst_spec (fun s => some s) (fun s => some s) "").1
      (Or.inl rfl)).1
  · exact ((to_pst_spec (fun _ => some "X") (fun _ => some "X")
      "2024-01-15t10:30:00").2 (by decide)).2.2.1 "X" (by decide) rfl
  · exact ((to_pst_spec (fun _ => none) (fun _ => none)
      "0001-01-01T00:00:00").2 (by decide)).1 (Or.inr rfl)
  · have h := ((to_pst_spec (fun s => some s) (fun s => some s)
      "garbage!").2 (by decide)).2.1 (Or.inl (by decide))
    rw [h, if_pos (by decide)]
    decide

end ZoomBot
